import Mathlib

/-!
Shallow embedding of the dependency-document core of `crates-feature-manager`
(`src/document.rs`) together with the small collaborator types it relies on.
Pure fragments of the Rust code become Lean functions; the mutable
`toml_edit` tree becomes an explicit tree value that operations transform,
and the final file write becomes an explicit success/failure input.
-/

set_option autoImplicit false

/-- Origin of a dependency.  Modelled from the spec: `DependencyOrigin`
is declared in the dependencies module (not under `src/`); the spec
describes it as a sum of `Remote` and `Local(path)`. -/
inductive DependencyOrigin where
| Remote : DependencyOrigin
| Local (path : String) : DependencyOrigin
deriving DecidableEq, Repr

/-- One declared dependency's logical state.  Modelled from the spec:
the `Dependency` type lives in the dependencies module (not under
`src/`); the spec lists the declared key `dep_name`, the effective name,
the version constraint string, the origin, and the derived feature
state (`get_features_to_enable`, `can_use_default`) that `document.rs`
consumes. -/
structure Dependency where
  dep_name : String
  name : String
  version : String
  origin : DependencyOrigin
  features_to_enable : List String
  use_default : Bool
deriving DecidableEq, Repr

/-- Modelled from the spec: the effective crate/package name used for
lookups and display; may differ from `dep_name` when aliased. -/
def Dependency.get_name (d : Dependency) : String := d.name

/-- Modelled from the spec: the version constraint string. -/
def Dependency.get_version (d : Dependency) : String := d.version

/-- Modelled from the spec: the default-features flag. -/
def Dependency.can_use_default (d : Dependency) : Bool := d.use_default

/-- Modelled from the spec: the additive set of non-default features
that must be explicitly listed in the manifest. -/
def Dependency.get_features_to_enable (d : Dependency) : List String :=
  d.features_to_enable

/-- A `toml_edit` value: string, boolean, array or inline table.
Key/value order of an inline table is the insertion order, which
`toml_edit` preserves when serializing. -/
inductive TomlValue where
| str (s : String) : TomlValue
| bool (b : Bool) : TomlValue
| array (xs : List TomlValue) : TomlValue
| inlineTable (kvs : List (String × TomlValue)) : TomlValue
deriving Repr

/-- A `toml_edit` item: a (non-inline) table, or a value. -/
inductive Item where
| table (kvs : List (String × Item)) : Item
| value (v : TomlValue) : Item
deriving Repr

/-- Keyed lookup in an association list, first match (`Table::get`). -/
def lookupKV {α : Type} : List (String × α) → String → Option α
| [], _ => Option.none
| (k', v) :: rest, k => if k' = k then some v else lookupKV rest k

/-- Keyed insertion in an association list: replace the value of an
existing key in place, otherwise append at the end
(`Table::insert` / `InlineTable::insert` of `toml_edit`). -/
def insertKV {α : Type} : List (String × α) → String → α → List (String × α)
| [], k, v => [(k, v)]
| (k', v') :: rest, k, v =>
    if k' = k then (k, v) :: rest else (k', v') :: insertKV rest k v

/-- Apply a function to the value stored under a key, leaving the rest
of the association list untouched. -/
def mapAtKey {α : Type} : List (String × α) → String → (α → α) → List (String × α)
| [], _, _ => []
| (k', v) :: rest, k, f =>
    if k' = k then (k', f v) :: rest else (k', v) :: mapAtKey rest k f

/-- `Item::get` / `Item::get_mut`: keyed child access, available on
tables and on inline-table values. -/
def Item.getKey : Item → String → Option Item
| .table kvs, k => lookupKV kvs k
| .value (.inlineTable kvs), k => (lookupKV kvs k).map Item.value
| .value _, _ => Option.none

/-- The navigation loop of `write_dep`: follow the dot-separated key
segments one `get_mut` at a time, giving up at the first absent one. -/
def Item.navigate : Item → List String → Option Item
| it, [] => some it
| it, k :: ks =>
    match it.getKey k with
    | some it' => it'.navigate ks
    | Option.none => Option.none

/-- `Item::as_table_mut`: succeeds exactly on a (non-inline) table. -/
def Item.asTable : Item → Option (List (String × Item))
| .table kvs => some kvs
| .value _ => Option.none

/-- Write-through of the `&mut Item` obtained by the navigation loop:
replacing the item at the given key path rebuilds the tree along that
path only. -/
def Item.setAtPath : Item → List String → Item → Item
| _, [], x => x
| .table kvs, k :: ks, x => .table (mapAtKey kvs k (fun it => it.setAtPath ks x))
| .value v, _ :: _, _ => .value v

mutual

/-- Serialization of a value back to manifest text. -/
def TomlValue.render : TomlValue → String
| .str s => "\"" ++ s ++ "\""
| .bool b => cond b "true" "false"
| .array xs => "[" ++ TomlValue.renderList xs ++ "]"
| .inlineTable kvs => "\x7b " ++ TomlValue.renderKVs kvs ++ " \x7d"

/-- Serialization of an array's elements, comma separated. -/
def TomlValue.renderList : List TomlValue → String
| [] => ""
| [x] => TomlValue.render x
| x :: y :: xs => TomlValue.render x ++ ", " ++ TomlValue.renderList (y :: xs)

/-- Serialization of an inline table's entries, comma separated. -/
def TomlValue.renderKVs : List (String × TomlValue) → String
| [] => ""
| [(k, v)] => k ++ " = " ++ TomlValue.render v
| (k, v) :: e :: kvs => k ++ " = " ++ TomlValue.render v ++ ", " ++ TomlValue.renderKVs (e :: kvs)

end

mutual

/-- Serialization of an item tree back to manifest text
(`DocumentMut::to_string`). -/
def Item.render : Item → String
| .table kvs => "\x7b " ++ Item.renderKVs kvs ++ " \x7d"
| .value v => TomlValue.render v

/-- Serialization of a table's entries, comma separated. -/
def Item.renderKVs : List (String × Item) → String
| [] => ""
| [(k, v)] => k ++ " = " ++ Item.render v
| (k, v) :: e :: kvs => k ++ " = " ++ Item.render v ++ ", " ++ Item.renderKVs (e :: kvs)

end

/-- The expansion condition of `write_dep` (document.rs:145-148): the
dependency does not use default features, or has features to enable,
or its origin is not `Remote`. -/
def expandedCond (d : Dependency) : Bool :=
  !d.can_use_default || !d.get_features_to_enable.isEmpty ||
    decide (d.origin ≠ DependencyOrigin.Remote)

/-- The encoding step of `write_dep` (document.rs:145-194): build the
item stored under the dependency's name — an inline attribute table in
the expanded case, a bare version string otherwise. -/
def encode_dep (d : Dependency) : Item :=
  let enabled_features := d.get_features_to_enable
  if !d.can_use_default || !enabled_features.isEmpty ||
      decide (d.origin ≠ DependencyOrigin.Remote) then
    let t0 : List (String × TomlValue) := []
    let t1 := match d.origin with
      | .Local path => insertKV t0 "path" (.str path)
      | .Remote => t0
    let t2 := if !d.version.isEmpty then
        insertKV t1 "version" (.str d.get_version)
      else t1
    let sorted_features := List.insertionSort (· ≤ ·) enabled_features
    let features := sorted_features.map TomlValue.str
    let t3 := if !features.isEmpty then insertKV t2 "features" (.array features) else t2
    let uses_default := d.can_use_default
    let t4 := if !uses_default then
        insertKV t3 "default-features" (.bool uses_default)
      else t3
    Item.value (.inlineTable t4)
  else
    Item.value (.str d.get_version)

/-- One manifest "package" scope.  Modelled from the spec: the `Package`
type lives in the package module (not under `src/`); the spec lists its
identity, directory path, the dependency-section key path exposed by
`dependency_type.key()` (kept here directly as the dotted key string),
the owned mutable document tree, and the ordered dependency list. -/
structure Package where
  name : String
  dir_path : String
  dependency_type_key : String
  toml_doc : Item
  dependencies : List Dependency

/-- The top-level aggregate of `src/document.rs`. -/
structure Document where
  packages : List Package

/-- Modelled from the spec: `Document::new` classifies the parsed
manifest; a workspace manifest produces one `Package` per member, a
single-package manifest produces exactly one `Package`. -/
def Document.new (workspace : Bool) (workspaceMembers : List Package)
    (singlePackage : Package) : Document :=
  if workspace then ⟨workspaceMembers⟩ else ⟨[singlePackage]⟩

/-- `Document::is_workspace` (document.rs:204-206). -/
def Document.is_workspace (doc : Document) : Bool :=
  decide (doc.packages.length > 1)

/-- `Document::get_packages_names` (document.rs:38-43). -/
def Document.get_packages_names (doc : Document) : List String :=
  doc.packages.map Package.name

/-- `Document::get_package` (document.rs:45-47). -/
def Document.get_package (doc : Document) (package_id : Nat) : Option Package :=
  doc.packages[package_id]?

/-- `Document::get_deps` (document.rs:49-51); the `.unwrap()` on an
out-of-range id is the `Option.none` outcome. -/
def Document.get_deps (doc : Document) (package_id : Nat) : Option (List Dependency) :=
  (doc.packages[package_id]?).map Package.dependencies

/-- The structured content of the error values `document.rs` builds
with `anyhow!`: a missing dependency-section path (carrying the package
name) or a failed name lookup (carrying the requested name). -/
inductive DocError where
| sectionNotFound (packageName : String) : DocError
| notFound (depName : String) : DocError
deriving DecidableEq, Repr

/-- `Document::get_dep` (document.rs:77-87): linear search by
`dep_name`; the outer `Option` is the `get_deps` unwrap. -/
def Document.get_dep (doc : Document) (package_id : Nat) (name : String) :
    Option (Except DocError Dependency) :=
  (doc.get_deps package_id).map (fun deps =>
    match deps.find? (fun dep => dep.dep_name == name) with
    | some d => Except.ok d
    | Option.none => Except.error (.notFound name))

/-- `Document::get_dep_index` (document.rs:89-97): enumerate and search
by the effective name `get_name()`, returning the position. -/
def Document.get_dep_index (doc : Document) (package_id : Nat) (name : String) :
    Option (Except DocError Nat) :=
  (doc.get_deps package_id).map (fun deps =>
    match deps.enum.find? (fun p => p.2.get_name == name) with
    | some p => Except.ok p.1
    | Option.none => Except.error (.notFound name))

/-- `Document::get_dep_mut` (document.rs:99-113): the same linear
search by `dep_name` as `get_dep`; mutability is not part of the
functional model, so the located dependency is returned. -/
def Document.get_dep_mut (doc : Document) (package_id : Nat) (name : String) :
    Option (Except DocError Dependency) :=
  (doc.get_deps package_id).map (fun deps =>
    match deps.find? (fun dep => dep.dep_name == name) with
    | some d => Except.ok d
    | Option.none => Except.error (.notFound name))

/-- Rust's `str::split('.')` used on the section key
(document.rs:133): cut the character list at every separator, keeping
empty pieces. -/
def splitOnChar (sep : Char) : List Char → List (List Char)
| [] => [[]]
| c :: rest =>
  let r := splitOnChar sep rest
  if c = sep then [] :: r
  else match r with
    | [] => [[c]]
    | piece :: pieces => (c :: piece) :: pieces

/-- The dot-separated segments of a dependency-section key. -/
def splitKey (key : String) : List String :=
  (splitOnChar '.' key.data).map (fun cs => String.mk cs)

/-- A fuzzy match result: score and matched character positions
(`fuzzy_matcher::FuzzyMatcher::fuzzy` with indices requested). -/
abbrev FuzzyResult := Int × List Nat

/-- The external fuzzy matcher, abstracted: `(candidate, pattern) ↦
optional (score, matched positions)`. -/
abbrev Matcher := String → String → Option FuzzyResult

/-- Score projection used by the comparator of
`get_deps_filtered_view`. -/
def scoreOf (x : Dependency × FuzzyResult) : Int := x.2.1

/-- Insertion step of the stable descending-score sort performed by
`itertools::sorted_by` with the reversed score comparator: an element
moves past exactly those elements whose score is strictly greater, so
equal scores keep their original relative order. -/
def insertByScoreDesc (x : Dependency × FuzzyResult) :
    List (Dependency × FuzzyResult) → List (Dependency × FuzzyResult)
| [] => [x]
| h :: t => if scoreOf x < scoreOf h then h :: insertByScoreDesc x t else x :: h :: t

/-- The stable descending-score sort of `get_deps_filtered_view`. -/
def sortByScoreDesc : List (Dependency × FuzzyResult) → List (Dependency × FuzzyResult)
| [] => []
| x :: l => insertByScoreDesc x (sortByScoreDesc l)

/-- The `filter_map` stage of `get_deps_filtered_view`
(document.rs:64-70): keep each dependency whose effective name fuzzy-
matches the filter, paired with its match result. -/
def filteredScored (m : Matcher) (deps : List Dependency) (filter : String) :
    List (Dependency × FuzzyResult) :=
  deps.filterMap (fun d => (m d.get_name filter).map (fun r => (d, r)))

/-- `Document::get_deps_filtered_view` (document.rs:57-75) on a
package's dependency list: fuzzy-filter, stable-sort by descending
score, keep each dependency with its matched positions. -/
def get_deps_filtered_view (m : Matcher) (deps : List Dependency) (filter : String) :
    List (Dependency × List Nat) :=
  (sortByScoreDesc (filteredScored m deps filter)).map (fun p => (p.1, p.2.2))

/-- Whether the final `fs::write` of `write_dep` succeeds; disk-full or
permission failures are the `fail` case. -/
inductive FsResult where
| ok : FsResult
| fail : FsResult
deriving DecidableEq, Repr

/-- Outcome of `write_dep`: normal return carrying the updated document
and the bytes written to the manifest file, an `anyhow` error carrying
the document state at the failure, or a panic (a failed `.unwrap()`)
carrying the in-memory state at the moment the process dies. -/
inductive WriteOutcome where
| ok (doc : Document) (fileContents : String) : WriteOutcome
| err (doc : Document) (e : DocError) : WriteOutcome
| panic (doc : Document) : WriteOutcome

/-- Whether a `write_dep` outcome is the recoverable error return. -/
def WriteOutcome.isErr : WriteOutcome → Bool
| .err _ _ => true
| _ => false

/-- Whether a `write_dep` outcome is a panic. -/
def WriteOutcome.isPanic : WriteOutcome → Bool
| .panic _ => true
| _ => false

/-- `Document::write_dep` (document.rs:126-203): resolve the package
(unwrap), walk the dot-separated section key path (error on a missing
segment), demand a table (unwrap), resolve the dependency (unwrap),
re-encode it, replace its entry under `get_name()` in the section
table, then serialize the whole tree and write the manifest file
(unwrap on failure). -/
def Document.write_dep (doc : Document) (package_id dep_index : Nat)
    (fs : FsResult) : WriteOutcome :=
  match doc.packages[package_id]? with
  | Option.none => .panic doc
  | some package =>
    let segs := splitKey package.dependency_type_key
    match package.toml_doc.navigate segs with
    | Option.none => .err doc (.sectionNotFound package.name)
    | some item =>
      match item.asTable with
      | Option.none => .panic doc
      | some kvs =>
        match package.dependencies[dep_index]? with
        | Option.none => .panic doc
        | some dependency =>
          let newTable := insertKV kvs dependency.get_name (encode_dep dependency)
          let newRoot := package.toml_doc.setAtPath segs (.table newTable)
          let doc' : Document :=
            ⟨doc.packages.set package_id { package with toml_doc := newRoot }⟩
          match fs with
          | .ok => .ok doc' newRoot.render
          | .fail => .panic doc'

/-- `Document::write_dep_by_name` (document.rs:115-124): resolve the
name by effective-name search, then delegate to `write_dep`. -/
def Document.write_dep_by_name (doc : Document) (package_id : Nat) (name : String)
    (fs : FsResult) : WriteOutcome :=
  match doc.packages[package_id]? with
  | Option.none => .panic doc
  | some package =>
    match package.dependencies.enum.find? (fun p => p.2.get_name == name) with
    | some p => doc.write_dep package_id p.1 fs
    | Option.none => .err doc (.notFound name)

/-- The `path` entry of the expanded table: present only for a local
origin. -/
def pathField (d : Dependency) : List (String × TomlValue) :=
  match d.origin with
  | .Local path => [("path", .str path)]
  | .Remote => []

/-- The `version` entry of the expanded table: present only for a
non-empty version string. -/
def versionField (d : Dependency) : List (String × TomlValue) :=
  if d.version.isEmpty then [] else [("version", .str d.get_version)]

/-- The lexicographically sorted feature names of a dependency. -/
def featureNames (d : Dependency) : List String :=
  List.insertionSort (· ≤ ·) d.get_features_to_enable

/-- The `features` entry of the expanded table: present only for a
non-empty enable-set, holding the sorted names. -/
def featuresField (d : Dependency) : List (String × TomlValue) :=
  if d.get_features_to_enable.isEmpty then []
  else [("features", .array ((featureNames d).map TomlValue.str))]

/-- The `default-features` entry of the expanded table: present only
when default features are disabled. -/
def defaultField (d : Dependency) : List (String × TomlValue) :=
  if d.can_use_default then [] else [("default-features", .bool false)]

/-- A plain remote dependency with default features, no extra features
and a non-empty version. -/
def exDep1 : Dependency := ⟨"serde", "serde", "1", .Remote, [], true⟩

/-- A remote dependency whose enable-set was populated in the order
`b, a, c`. -/
def exDep2 : Dependency := ⟨"demo", "demo", "1", .Remote, ["b", "a", "c"], true⟩

/-- An empty example package. -/
def exPkgA : Package := ⟨"a", ".", "dependencies", Item.table [], []⟩

/-- A second empty example package. -/
def exPkgB : Package := ⟨"b", ".", "dependencies", Item.table [], []⟩

/-- An aliased dependency: declared key `a`, effective name `b`. -/
def exAliasDep : Dependency := ⟨"a", "b", "1", .Remote, [], true⟩

/-- A document with a single aliased dependency. -/
def exAliasDoc : Document :=
  ⟨[⟨"demo", ".", "dependencies",
     Item.table [("a", Item.value (TomlValue.str "1"))], [exAliasDep]⟩]⟩

/-- Plain (non-aliased) example dependencies `a`, `b`, `c`. -/
def exDepA : Dependency := ⟨"a", "a", "1", .Remote, [], true⟩

/-- See `exDepA`. -/
def exDepB : Dependency := ⟨"b", "b", "1", .Remote, [], true⟩

/-- See `exDepA`. -/
def exDepC : Dependency := ⟨"c", "c", "1", .Remote, [], true⟩

/-- A document whose only package has the dependency list `[a, b, c]`. -/
def exAbcDoc : Document :=
  ⟨[⟨"demo", ".", "dependencies", Item.table [], [exDepA, exDepB, exDepC]⟩]⟩

/-- A package whose tree holds a well-formed `dependencies` table with
the plain entry `serde = "1"`. -/
def exWritePkg : Package :=
  ⟨"demo", ".", "dependencies",
   Item.table [("dependencies", Item.table [("serde", Item.value (TomlValue.str "1"))])],
   [exDep1]⟩

/-- A document around `exWritePkg`. -/
def exWriteDoc : Document := ⟨[exWritePkg]⟩

/-- A package whose tree lacks the `dependencies` table entirely. -/
def exNoSecPkg : Package := ⟨"demo", ".", "dependencies", Item.table [], [exDep1]⟩

/-- A document around `exNoSecPkg`. -/
def exNoSecDoc : Document := ⟨[exNoSecPkg]⟩

/-- A package whose `dependencies` key resolves to a string value
rather than a table. -/
def exBadSecPkg : Package :=
  ⟨"demo", ".", "dependencies",
   Item.table [("dependencies", Item.value (TomlValue.str "x"))], [exDep1]⟩

/-- A document around `exBadSecPkg`. -/
def exBadSecDoc : Document := ⟨[exBadSecPkg]⟩

/-- A package holding the aliased dependency `exAliasDep` (declared key
`a`, effective name `b`) and a `dependencies` table declaring `a`. -/
def exAliasPkg : Package :=
  ⟨"demo", ".", "dependencies",
   Item.table [("dependencies", Item.table [("a", Item.value (TomlValue.str "1"))])],
   [exAliasDep]⟩

/-- A document around `exAliasPkg`. -/
def exAliasDoc2 : Document := ⟨[exAliasPkg]⟩

/-- The section table after `write_dep` replaces the entry under the
dependency's effective name with its re-encoding. -/
def writeResultTable (kvs : List (String × Item)) (dep : Dependency) :
    List (String × Item) :=
  insertKV kvs dep.get_name (encode_dep dep)

/-- The package tree after `write_dep` patches the section table in. -/
def writeResultRoot (pkg : Package) (kvs : List (String × Item)) (dep : Dependency) : Item :=
  pkg.toml_doc.setAtPath (splitKey pkg.dependency_type_key)
    (Item.table (writeResultTable kvs dep))

/-- The package after a successful `write_dep`. -/
def writeResultPkg (pkg : Package) (kvs : List (String × Item)) (dep : Dependency) : Package :=
  { pkg with toml_doc := writeResultRoot pkg kvs dep }

/-- A miniature stand-in matcher: accepts every candidate exactly for
the empty pattern, with one uniform degenerate score. -/
def simpleMatcher : Matcher :=
  fun _ filt => if filt = "" then some (0, []) else Option.none

/-- A stand-in matcher giving `serde_json` a positive score under the
pattern `sj` and rejecting everything else. -/
def rankMatcher : Matcher :=
  fun name filt =>
    if filt = "" then some (0, [])
    else if name = "serde_json" then some (10, [0, 6]) else Option.none

/-- Example dependency `serde_json`. -/
def exDepSerdeJson : Dependency :=
  ⟨"serde_json", "serde_json", "1", .Remote, [], true⟩

/-- Example dependency `tokio`. -/
def exDepTokio : Dependency := ⟨"tokio", "tokio", "1", .Remote, [], true⟩

theorem isEmpty_of_perm {α : Type} {l l' : List α} (h : l.Perm l') :
    l.isEmpty = l'.isEmpty := by
  cases l <;> cases l' <;> simp_all [List.Perm.nil_eq]

theorem insertionSort_isEmpty (l : List String) :
    (List.insertionSort (· ≤ ·) l).isEmpty = l.isEmpty :=
  isEmpty_of_perm (List.perm_insertionSort _ l)

theorem map_isEmpty {α β : Type} (f : α → β) (l : List α) :
    (l.map f).isEmpty = l.isEmpty := by
  cases l <;> rfl

theorem expandedCond_eq_true_iff (d : Dependency) :
    expandedCond d = true ↔
      (d.can_use_default = false ∨ d.get_features_to_enable ≠ [] ∨
        d.origin ≠ DependencyOrigin.Remote) := by
  simp [expandedCond, Bool.or_eq_true, Bool.not_eq_true', List.isEmpty_iff, or_assoc]

theorem encode_dep_shorthand (d : Dependency) (h : expandedCond d = false) :
    encode_dep d = Item.value (TomlValue.str d.get_version) := by
  simp only [expandedCond] at h
  simp only [encode_dep, h]
  simp

theorem encode_dep_expanded (d : Dependency) (h : expandedCond d = true) :
    encode_dep d =
      Item.value (.inlineTable
        (pathField d ++ versionField d ++ featuresField d ++ defaultField d)) := by
  simp only [expandedCond] at h
  simp only [encode_dep, h]
  have hfe : ((List.insertionSort (· ≤ ·) d.get_features_to_enable).map TomlValue.str).isEmpty
      = d.get_features_to_enable.isEmpty := by
    rw [map_isEmpty, insertionSort_isEmpty]
  cases hor : d.origin <;>
    by_cases hv : d.version.isEmpty <;>
      by_cases hf : d.get_features_to_enable.isEmpty <;>
        by_cases hd : d.can_use_default = true <;>
          simp_all [pathField, versionField, featuresField, featureNames, defaultField,
            insertKV, Dependency.get_features_to_enable, Dependency.can_use_default]

theorem insertionSort_eq_of_perm {l l' : List String} (h : l.Perm l') :
    List.insertionSort (· ≤ ·) l = List.insertionSort (· ≤ ·) l' :=
  List.eq_of_perm_of_sorted
    ((List.perm_insertionSort _ l).trans (h.trans (List.perm_insertionSort _ l').symm))
    (List.sorted_insertionSort _ l) (List.sorted_insertionSort _ l')

theorem encode_dep_features_perm (d : Dependency) (fs' : List String)
    (hp : fs'.Perm d.features_to_enable) :
    encode_dep { d with features_to_enable := fs' } = encode_dep d := by
  have hs : List.insertionSort (· ≤ ·) fs' = List.insertionSort (· ≤ ·) d.features_to_enable :=
    insertionSort_eq_of_perm hp
  have he : fs'.isEmpty = d.features_to_enable.isEmpty := isEmpty_of_perm hp
  simp only [encode_dep, Dependency.get_features_to_enable, Dependency.can_use_default,
    Dependency.get_version, hs, he]

/-- C1: the dependency encoding of `write_dep` is the expanded
attribute table exactly when the dependency does not use default
features, has a non-empty set of features to enable, or is not of
remote origin; otherwise it is the bare version string. -/
theorem claim_C1_encoding_shape (d : Dependency) :
    ((∃ kvs, encode_dep d = Item.value (TomlValue.inlineTable kvs)) ↔
      (d.can_use_default = false ∨ d.get_features_to_enable ≠ [] ∨
        d.origin ≠ DependencyOrigin.Remote))
  ∧ (d.can_use_default = true → d.get_features_to_enable = [] →
      d.origin = DependencyOrigin.Remote →
      encode_dep d = Item.value (TomlValue.str d.get_version)) := by
  by_cases hc : expandedCond d = true
  · refine ⟨⟨fun _ => (expandedCond_eq_true_iff d).1 hc, fun _ => ?_⟩, ?_⟩
    · exact ⟨_, encode_dep_expanded d hc⟩
    · intro h1 h2 h3
      rcases (expandedCond_eq_true_iff d).1 hc with h | h | h <;> simp_all
  · have hc' : expandedCond d = false := by
      cases hcv : expandedCond d
      · rfl
      · exact absurd hcv hc
    have hsh := encode_dep_shorthand d hc'
    refine ⟨⟨fun hex => ?_, fun hdis => absurd ((expandedCond_eq_true_iff d).2 hdis) hc⟩,
      fun _ _ _ => hsh⟩
    obtain ⟨kvs, hk⟩ := hex
    rw [hsh] at hk
    simp at hk

/-- C1 witness: a plain remote dependency with default features and no
extra features is written as the bare version string. -/
theorem claim_C1_encoding_shape_witness :
    encode_dep exDep1 = Item.value (TomlValue.str "1") :=
  (claim_C1_encoding_shape exDep1).2 rfl rfl rfl

/-- C2: in the expanded table the fields appear in the fixed order
`path`, `version`, `features`, `default-features`, each present under
exactly its stated condition; feature names are sorted
lexicographically, and the encoding does not depend on the enable-set's
internal order. -/
theorem claim_C2_expanded_fields (d : Dependency) (h : expandedCond d = true) :
    encode_dep d = Item.value (.inlineTable
      (pathField d ++ versionField d ++ featuresField d ++ defaultField d))
  ∧ List.Sorted (· ≤ ·) (featureNames d)
  ∧ (∀ fs' : List String, fs'.Perm d.features_to_enable →
      encode_dep { d with features_to_enable := fs' } = encode_dep d) :=
  ⟨encode_dep_expanded d h, List.sorted_insertionSort _ _,
    fun fs' hp => encode_dep_features_perm d fs' hp⟩

/-- C2 witness: the enable-set populated as `b, a, c` is written as the
sorted array `a, b, c`, after the version and with no
`default-features` key. -/
theorem claim_C2_expanded_fields_witness :
    encode_dep exDep2 = Item.value (TomlValue.inlineTable
      [("version", TomlValue.str "1"),
       ("features", TomlValue.array
         [TomlValue.str "a", TomlValue.str "b", TomlValue.str "c"])]) := by
  have h1 : ("a" : String) ≤ "c" := by simp; decide
  have h2 : ¬ ("b" : String) ≤ "a" := by simp; decide
  have h3 : ("b" : String) ≤ "c" := by simp; decide
  have hsort : featureNames exDep2 = ["a", "b", "c"] := by
    simp only [featureNames, Dependency.get_features_to_enable, exDep2, List.insertionSort,
      List.orderedInsert, if_pos h1, if_neg h2, if_pos h3]
  rw [(claim_C2_expanded_fields exDep2 rfl).1]
  simp only [pathField, versionField, featuresField, defaultField, hsort]
  rfl

/-- C8: `is_workspace` holds exactly when the document has more than
one package: a document built from two or more workspace members
reports true; a single-package document, or a workspace resolving to
exactly one member, reports false. -/
theorem claim_C8_workspace_iff (doc : Document) :
    (doc.is_workspace = true ↔ doc.packages.length > 1)
  ∧ (∀ ms p, 2 ≤ ms.length → (Document.new true ms p).is_workspace = true)
  ∧ (∀ ms p, (Document.new false ms p).is_workspace = false)
  ∧ (∀ m p, (Document.new true [m] p).is_workspace = false) := by
  refine ⟨by simp [Document.is_workspace], ?_, ?_, ?_⟩
  · intro ms p h
    simp [Document.new, Document.is_workspace]
    omega
  · intro ms p
    simp [Document.new, Document.is_workspace]
  · intro m p
    simp [Document.new, Document.is_workspace]

/-- C8 witness: two members give a workspace, a single-package document
does not. -/
theorem claim_C8_workspace_iff_witness :
    (Document.new true [exPkgA, exPkgB] exPkgA).is_workspace = true
  ∧ (Document.new false [] exPkgA).is_workspace = false :=
  ⟨(claim_C8_workspace_iff ⟨[]⟩).2.1 [exPkgA, exPkgB] exPkgA (by decide),
   (claim_C8_workspace_iff ⟨[]⟩).2.2.1 [] exPkgA⟩

/-- C7 counterexample: on an aliased dependency (declared key `a`,
effective name `b`), `get_dep` and `get_dep_mut` succeed for the name
`a` while `get_dep_index` fails with `NotFound` for the very same name,
so the three accessors do not perform the same search. -/
theorem claim_C7_counterexample :
    Document.get_dep exAliasDoc 0 "a" = some (Except.ok exAliasDep)
  ∧ Document.get_dep_index exAliasDoc 0 "a"
      = some (Except.error (DocError.notFound "a"))
  ∧ Document.get_dep_mut exAliasDoc 0 "a" = some (Except.ok exAliasDep) :=
  ⟨rfl, rfl, rfl⟩

theorem find_enumFrom_of_noalias (deps : List Dependency) (n : String)
    (hna : ∀ d ∈ deps, d.get_name = d.dep_name) : ∀ k : Nat,
    (deps.find? (fun d => d.dep_name == n) = Option.none →
      (List.enumFrom k deps).find? (fun p => p.2.get_name == n) = Option.none)
  ∧ (∀ d, deps.find? (fun d => d.dep_name == n) = some d →
      ∃ i, (List.enumFrom k deps).find? (fun p => p.2.get_name == n) = some (k + i, d)
        ∧ deps[i]? = some d
        ∧ ∀ j d', j < i → deps[j]? = some d' → d'.dep_name ≠ n) := by
  induction deps with
  | nil => intro k; exact ⟨fun _ => rfl, fun d h => by cases h⟩
  | cons d0 rest ih =>
    intro k
    have hna0 : d0.get_name = d0.dep_name := hna d0 (by simp)
    have hnarest : ∀ d ∈ rest, d.get_name = d.dep_name :=
      fun d hd => hna d (by simp [hd])
    by_cases hb : (d0.dep_name == n) = true
    · constructor
      · intro h
        simp [List.find?, hb] at h
      · intro d h
        simp only [List.find?, hb] at h
        obtain rfl : d0 = d := by simpa using h
        refine ⟨0, ?_, by simp, fun j d' hj _ => absurd hj (Nat.not_lt_zero j)⟩
        simp [List.enumFrom, List.find?, hna0, hb]
    · have hb' : (d0.get_name == n) = false := by
        rw [hna0]
        exact Bool.eq_false_iff.2 hb
      have hbne : d0.dep_name ≠ n := by
        simpa using hb
      constructor
      · intro h
        simp only [List.find?, hb] at h
        have := (ih hnarest (k + 1)).1 h
        simp [List.enumFrom, List.find?, hb', this]
      · intro d h
        simp only [List.find?, hb] at h
        obtain ⟨i, hfind, hget, hfirst⟩ := (ih hnarest (k + 1)).2 d h
        refine ⟨i + 1, ?_, by simpa using hget, ?_⟩
        · have : k + 1 + i = k + (i + 1) := by omega
          simp [List.enumFrom, List.find?, hb', this ▸ hfind]
        · intro j d' hj hget'
          cases j with
          | zero =>
            obtain rfl : d0 = d' := by simpa using hget'
            exact hbne
          | succ j' =>
            exact hfirst j' d' (by omega) (by simpa using hget')

/-- C7 amended: `get_dep` and `get_dep_mut` search linearly by the
declared key `dep_name`, while `get_dep_index` searches by the
effective name `get_name()`; when no dependency is aliased (the two
names agree for every dependency of the package) the three accessors
agree: `get_dep_index` succeeds with the position of the first match of
`get_dep`, and all three fail with a `NotFound` error carrying the
requested name exactly when no dependency matches. -/
theorem claim_C7_amended (doc : Document) (pid : Nat) (pkg : Package) (n : String)
    (hpkg : doc.packages[pid]? = some pkg)
    (hna : ∀ d ∈ pkg.dependencies, d.get_name = d.dep_name) :
    (doc.get_dep_mut pid n = doc.get_dep pid n)
  ∧ ((∀ d ∈ pkg.dependencies, d.dep_name ≠ n) →
      doc.get_dep pid n = some (Except.error (DocError.notFound n))
    ∧ doc.get_dep_index pid n = some (Except.error (DocError.notFound n)))
  ∧ (∀ d, pkg.dependencies.find? (fun dep => dep.dep_name == n) = some d →
      doc.get_dep pid n = some (Except.ok d)
    ∧ ∃ i, doc.get_dep_index pid n = some (Except.ok i)
        ∧ pkg.dependencies[i]? = some d
        ∧ ∀ j d', j < i → pkg.dependencies[j]? = some d' → d'.dep_name ≠ n) := by
  have hmain := find_enumFrom_of_noalias pkg.dependencies n hna 0
  refine ⟨rfl, ?_, ?_⟩
  · intro hnone
    have hfn : pkg.dependencies.find? (fun dep => dep.dep_name == n) = Option.none := by
      rw [List.find?_eq_none]
      intro d hd
      simpa using hnone d hd
    have := hmain.1 hfn
    constructor
    · simp [Document.get_dep, Document.get_deps, hpkg, hfn]
    · simp [Document.get_dep_index, Document.get_deps, hpkg, List.enum, this]
  · intro d hfind
    obtain ⟨i, hfi, hget, hfirst⟩ := hmain.2 d hfind
    refine ⟨by simp [Document.get_dep, Document.get_deps, hpkg, hfind], i, ?_, hget, hfirst⟩
    simp only [Nat.zero_add] at hfi
    simp [Document.get_dep_index, Document.get_deps, hpkg, List.enum, hfi]

/-- C7 witness: on the non-aliased list `[a, b, c]`, looking up `b`
succeeds in `get_dep` and `get_dep_mut`, and `get_dep_index` returns
position 1. -/
theorem claim_C7_amended_witness :
    Document.get_dep exAbcDoc 0 "b" = some (Except.ok exDepB)
  ∧ Document.get_dep_mut exAbcDoc 0 "b" = Document.get_dep exAbcDoc 0 "b"
  ∧ Document.get_dep_index exAbcDoc 0 "b" = some (Except.ok 1) := by
  have h := claim_C7_amended exAbcDoc 0 _ "b" rfl (by decide)
  exact ⟨(h.2.2 exDepB (by decide)).1, h.1, rfl⟩

theorem navigate_value : ∀ (p : List String) (v : TomlValue) (r : Item),
    Item.navigate (.value v) p = some r → ∃ v', r = Item.value v' := by
  intro p
  induction p with
  | nil =>
    intro v r h
    simp only [Item.navigate, Option.some.injEq] at h
    exact ⟨v, h.symm⟩
  | cons k ks ih =>
    intro v r h
    cases v with
    | inlineTable kvs =>
      simp only [Item.navigate, Item.getKey] at h
      cases hl : lookupKV kvs k with
      | none => simp [hl] at h
      | some w =>
        simp only [hl, Option.map_some'] at h
        exact ih w r h
    | str s => simp [Item.navigate, Item.getKey] at h
    | bool b => simp [Item.navigate, Item.getKey] at h
    | array xs => simp [Item.navigate, Item.getKey] at h

theorem lookupKV_mapAtKey {α : Type} (k : String) (f : α → α) :
    ∀ kvs : List (String × α), lookupKV (mapAtKey kvs k f) k = (lookupKV kvs k).map f := by
  intro kvs
  induction kvs with
  | nil => rfl
  | cons kv rest ih =>
    obtain ⟨k', v⟩ := kv
    by_cases h : k' = k
    · simp [mapAtKey, lookupKV, h]
    · simp [mapAtKey, lookupKV, h, ih]

theorem mapAtKey_congr {α : Type} (k : String) {f g : α → α} (h : ∀ v, f v = g v) :
    ∀ kvs : List (String × α), mapAtKey kvs k f = mapAtKey kvs k g := by
  intro kvs
  induction kvs with
  | nil => rfl
  | cons kv rest ih =>
    obtain ⟨k', v⟩ := kv
    by_cases hk : k' = k <;> simp [mapAtKey, hk, h, ih]

theorem mapAtKey_mapAtKey {α : Type} (k : String) (f g : α → α) :
    ∀ kvs : List (String × α),
      mapAtKey (mapAtKey kvs k f) k g = mapAtKey kvs k (fun v => g (f v)) := by
  intro kvs
  induction kvs with
  | nil => rfl
  | cons kv rest ih =>
    obtain ⟨k', v⟩ := kv
    by_cases h : k' = k
    · simp [mapAtKey, h]
    · simp [mapAtKey, h, ih]

theorem navigate_setAtPath : ∀ (p : List String) (it : Item)
    (t0 : List (String × Item)) (x : Item),
    Item.navigate it p = some (.table t0) →
    Item.navigate (it.setAtPath p x) p = some x := by
  intro p
  induction p with
  | nil =>
    intro it t0 x _
    simp [Item.navigate, Item.setAtPath]
  | cons k ks ih =>
    intro it t0 x h
    cases it with
    | value v =>
      obtain ⟨v', hv⟩ := navigate_value (k :: ks) v _ h
      exact absurd hv (by simp)
    | table kvs =>
      simp only [Item.navigate, Item.getKey] at h
      cases hl : lookupKV kvs k with
      | none => simp [hl] at h
      | some it1 =>
        simp only [hl] at h
        simp only [Item.setAtPath, Item.navigate, Item.getKey, lookupKV_mapAtKey, hl,
          Option.map_some']
        exact ih it1 t0 x h

theorem setAtPath_setAtPath : ∀ (p : List String) (it x y : Item),
    (it.setAtPath p x).setAtPath p y = it.setAtPath p y := by
  intro p
  induction p with
  | nil => intro it x y; simp [Item.setAtPath]
  | cons k ks ih =>
    intro it x y
    cases it with
    | value v => rfl
    | table kvs =>
      simp only [Item.setAtPath, mapAtKey_mapAtKey]
      exact congrArg Item.table (mapAtKey_congr k (fun v => ih v x y) kvs)

theorem insertKV_insertKV {α : Type} (k : String) (v : α) :
    ∀ kvs, insertKV (insertKV kvs k v) k v = insertKV kvs k v := by
  intro kvs
  induction kvs with
  | nil => simp [insertKV]
  | cons kv rest ih =>
    obtain ⟨k', v'⟩ := kv
    by_cases h : k' = k
    · simp [insertKV, h]
    · simp [insertKV, h, ih]

theorem lookupKV_insertKV_self {α : Type} (k : String) (v : α) :
    ∀ kvs, lookupKV (insertKV kvs k v) k = some v := by
  intro kvs
  induction kvs with
  | nil => simp [insertKV, lookupKV]
  | cons kv rest ih =>
    obtain ⟨k', v'⟩ := kv
    by_cases h : k' = k
    · simp [insertKV, h, lookupKV]
    · simp [insertKV, h, lookupKV, ih]

theorem lookupKV_insertKV_ne {α : Type} (k k' : String) (v : α) (hne : k' ≠ k) :
    ∀ kvs, lookupKV (insertKV kvs k v) k' = lookupKV kvs k' := by
  intro kvs
  induction kvs with
  | nil => simp [insertKV, lookupKV, Ne.symm hne]
  | cons kv rest ih =>
    obtain ⟨k0, v0⟩ := kv
    by_cases h : k0 = k
    · subst h
      simp [insertKV, lookupKV, Ne.symm hne]
    · simp [insertKV, h, lookupKV, ih]

theorem getElem?_set_self {α : Type} : ∀ (l : List α) (i : Nat) (a b : α),
    l[i]? = some b → (l.set i a)[i]? = some a := by
  intro l
  induction l with
  | nil => intro i a b h; simp at h
  | cons x xs ih =>
    intro i a b h
    cases i with
    | zero => simp
    | succ j =>
      simp only [List.set_cons_succ, List.getElem?_cons_succ] at h ⊢
      exact ih j a b h

theorem set_of_getElem?_eq {α : Type} : ∀ (l : List α) (i : Nat) (a : α),
    l[i]? = some a → l.set i a = l := by
  intro l
  induction l with
  | nil => intro i a h; simp at h
  | cons x xs ih =>
    intro i a h
    cases i with
    | zero => simp_all
    | succ j =>
      simp only [List.getElem?_cons_succ] at h
      simp [List.set_cons_succ, ih j a h]


theorem map_set_eq_of {α β : Type} (f : α → β) : ∀ (l : List α) (i : Nat) (a b : α),
    l[i]? = some a → f b = f a → (l.set i b).map f = l.map f := by
  intro l
  induction l with
  | nil => intro i a b h _; simp at h
  | cons x xs ih =>
    intro i a b h hf
    cases i with
    | zero =>
      simp only [List.getElem?_cons_zero, Option.some.injEq] at h
      subst h
      simp [hf]
    | succ j =>
      simp only [List.getElem?_cons_succ] at h
      simp only [List.set_cons_succ, List.map_cons, ih j a b h hf]

theorem write_dep_ok_inv (doc : Document) (pid dep_index : Nat) (doc' : Document)
    (s : String) (h : doc.write_dep pid dep_index FsResult.ok = .ok doc' s) :
    ∃ pkg kvs dep,
      doc.packages[pid]? = some pkg
    ∧ pkg.toml_doc.navigate (splitKey pkg.dependency_type_key) = some (.table kvs)
    ∧ pkg.dependencies[dep_index]? = some dep
    ∧ doc' = ⟨doc.packages.set pid (writeResultPkg pkg kvs dep)⟩
    ∧ s = (writeResultRoot pkg kvs dep).render := by
  cases hpkg : doc.packages[pid]? with
  | none => simp [Document.write_dep, hpkg] at h
  | some pkg =>
    cases hnav : pkg.toml_doc.navigate (splitKey pkg.dependency_type_key) with
    | none => simp [Document.write_dep, hpkg, hnav] at h
    | some item =>
      cases item with
      | value v => simp [Document.write_dep, hpkg, hnav, Item.asTable] at h
      | table kvs =>
        cases hdep : pkg.dependencies[dep_index]? with
        | none => simp [Document.write_dep, hpkg, hnav, hdep, Item.asTable] at h
        | some dep =>
          simp only [Document.write_dep, hpkg, hnav, Item.asTable, hdep,
            WriteOutcome.ok.injEq] at h
          exact ⟨pkg, kvs, dep, rfl, hnav, hdep, h.1.symm, h.2.symm⟩

/-- C4: when a segment of the dot-separated section key path is absent
from the package's tree, `write_dep` fails with the section-not-found
error carrying the package's name; the error is surfaced to the caller
with the document unchanged — nothing is created or repaired and no
file content is produced. -/
theorem claim_C4_section_not_found (doc : Document) (pid dep_index : Nat)
    (fs : FsResult) (pkg : Package)
    (hpkg : doc.packages[pid]? = some pkg)
    (hnav : pkg.toml_doc.navigate (splitKey pkg.dependency_type_key) = Option.none) :
    doc.write_dep pid dep_index fs
      = WriteOutcome.err doc (DocError.sectionNotFound pkg.name) := by
  simp [Document.write_dep, hpkg, hnav]

/-- C4 witness: a tree without the `dependencies` table makes
`write_dep` return the section-not-found error for package `demo`. -/
theorem claim_C4_section_not_found_witness :
    Document.write_dep exNoSecDoc 0 0 FsResult.ok
      = WriteOutcome.err exNoSecDoc (DocError.sectionNotFound "demo") :=
  claim_C4_section_not_found exNoSecDoc 0 0 FsResult.ok exNoSecPkg rfl rfl

/-- C10: the error return of `write_dep` arises only from a missing
key-path segment; a fully resolving key path whose final item is not a
table leads to a panic, not an error; and under the precondition that
the key path resolves to a table and both indices are in range, no
unwrap before the file write fails, so with a succeeding file write the
call returns normally. -/
theorem claim_C10_panic_conditions (doc : Document) (pid dep_index : Nat) (fs : FsResult) :
    (∀ d e, doc.write_dep pid dep_index fs = .err d e →
      d = doc ∧ ∃ pkg, doc.packages[pid]? = some pkg
        ∧ pkg.toml_doc.navigate (splitKey pkg.dependency_type_key) = Option.none
        ∧ e = DocError.sectionNotFound pkg.name)
  ∧ (∀ pkg item, doc.packages[pid]? = some pkg →
      pkg.toml_doc.navigate (splitKey pkg.dependency_type_key) = some item →
      item.asTable = Option.none →
      doc.write_dep pid dep_index fs = .panic doc)
  ∧ (∀ pkg kvs dep, doc.packages[pid]? = some pkg →
      pkg.toml_doc.navigate (splitKey pkg.dependency_type_key) = some (.table kvs) →
      pkg.dependencies[dep_index]? = some dep → fs = FsResult.ok →
      ∃ doc' s, doc.write_dep pid dep_index fs = .ok doc' s) := by
  refine ⟨?_, ?_, ?_⟩
  · intro d e h
    cases hpkg : doc.packages[pid]? with
    | none => simp [Document.write_dep, hpkg] at h
    | some pkg =>
      cases hnav : pkg.toml_doc.navigate (splitKey pkg.dependency_type_key) with
      | none =>
        simp only [Document.write_dep, hpkg, hnav, WriteOutcome.err.injEq] at h
        exact ⟨h.1.symm, pkg, rfl, hnav, h.2.symm⟩
      | some item =>
        cases item with
        | value v => simp [Document.write_dep, hpkg, hnav, Item.asTable] at h
        | table kvs =>
          cases hdep : pkg.dependencies[dep_index]? with
          | none => simp [Document.write_dep, hpkg, hnav, hdep, Item.asTable] at h
          | some dep =>
            cases fs <;> simp [Document.write_dep, hpkg, hnav, hdep, Item.asTable] at h
  · intro pkg item hpkg hnav htab
    cases item with
    | table kvs => simp [Item.asTable] at htab
    | value v => simp [Document.write_dep, hpkg, hnav, Item.asTable]
  · intro pkg kvs dep hpkg hnav hdep hfs
    subst hfs
    refine ⟨⟨doc.packages.set pid (writeResultPkg pkg kvs dep)⟩,
      (writeResultRoot pkg kvs dep).render, ?_⟩
    simp [Document.write_dep, hpkg, hnav, hdep, Item.asTable,
      writeResultPkg, writeResultRoot, writeResultTable]

/-- C10 witness: a `dependencies` key resolving to a string value makes
`write_dep` panic instead of returning an error. -/
theorem claim_C10_panic_conditions_witness :
    Document.write_dep exBadSecDoc 0 0 FsResult.ok = WriteOutcome.panic exBadSecDoc :=
  (claim_C10_panic_conditions exBadSecDoc 0 0 FsResult.ok).2.1 exBadSecPkg
    (Item.value (TomlValue.str "x")) rfl rfl rfl

/-- C5 counterexample: when the final file write fails, `write_dep`
does not return an error result at all — the `.unwrap()` on
`fs::write` (document.rs:200) panics. -/
theorem claim_C5_counterexample :
    (Document.write_dep exWriteDoc 0 0 FsResult.fail).isErr = false
  ∧ (Document.write_dep exWriteDoc 0 0 FsResult.fail).isPanic = true :=
  ⟨rfl, rfl⟩

/-- C5 amended: a failing final file write makes `write_dep` panic (a
crash, not a returned I/O error); there is no rollback — the in-memory
tree keeps the re-encoded entry — and the dependency lists are
untouched by the call, exactly as after a successful write. -/
theorem claim_C5_amended (doc : Document) (pid dep_index : Nat) (doc' : Document)
    (s : String) (h : doc.write_dep pid dep_index FsResult.ok = .ok doc' s) :
    doc.write_dep pid dep_index FsResult.fail = WriteOutcome.panic doc'
  ∧ doc'.packages.map Package.dependencies = doc.packages.map Package.dependencies := by
  obtain ⟨pkg, kvs, dep, hpkg, hnav, hdep, hdoc, hs⟩ :=
    write_dep_ok_inv doc pid dep_index doc' s h
  constructor
  · simp [Document.write_dep, hpkg, hnav, hdep, Item.asTable, hdoc,
      writeResultPkg, writeResultRoot, writeResultTable]
  · subst hdoc
    exact map_set_eq_of Package.dependencies doc.packages pid pkg _ hpkg rfl

/-- C5 witness: on the concrete document the failing write panics with
the updated in-memory state. -/
theorem claim_C5_amended_witness :
    Document.write_dep exWriteDoc 0 0 FsResult.fail = WriteOutcome.panic exWriteDoc :=
  (claim_C5_amended exWriteDoc 0 0 exWriteDoc
    "\x7b dependencies = \x7b serde = \"1\" \x7d \x7d" rfl).1

/-- C3: calling `write_dep` twice in succession with no intervening
mutation returns the same in-memory document and writes byte-identical
file contents on the second call. -/
theorem claim_C3_write_dep_idempotent (doc : Document) (pid dep_index : Nat)
    (doc' : Document) (s : String)
    (h : doc.write_dep pid dep_index FsResult.ok = .ok doc' s) :
    doc'.write_dep pid dep_index FsResult.ok = .ok doc' s := by
  obtain ⟨pkg, kvs, dep, hpkg, hnav, hdep, hdoc, hs⟩ :=
    write_dep_ok_inv doc pid dep_index doc' s h
  have hpkg2 : doc'.packages[pid]? = some (writeResultPkg pkg kvs dep) := by
    rw [hdoc]
    exact getElem?_set_self doc.packages pid _ pkg hpkg
  have hnav2 : (writeResultPkg pkg kvs dep).toml_doc.navigate
      (splitKey (writeResultPkg pkg kvs dep).dependency_type_key)
      = some (.table (writeResultTable kvs dep)) :=
    navigate_setAtPath _ pkg.toml_doc kvs _ hnav
  have hdep2 : (writeResultPkg pkg kvs dep).dependencies[dep_index]? = some dep := hdep
  have hins : insertKV (writeResultTable kvs dep) dep.get_name (encode_dep dep)
      = writeResultTable kvs dep :=
    insertKV_insertKV dep.get_name (encode_dep dep) kvs
  simp only [Document.write_dep, hpkg2, hnav2, Item.asTable, hdep2]
  subst hdoc hs
  simp [writeResultPkg, writeResultRoot, hins, setAtPath_setAtPath, List.set_set]

/-- C3 witness: writing the plain `serde` dependency of `exWriteDoc`
is idempotent, reproducing the same document and file bytes. -/
theorem claim_C3_write_dep_idempotent_witness :
    Document.write_dep exWriteDoc 0 0 FsResult.ok
      = WriteOutcome.ok exWriteDoc "\x7b dependencies = \x7b serde = \"1\" \x7d \x7d" :=
  claim_C3_write_dep_idempotent exWriteDoc 0 0 exWriteDoc
    "\x7b dependencies = \x7b serde = \"1\" \x7d \x7d" rfl

/-- C9: `write_dep` writes under the effective name `get_name()`, never
the declared key `dep_name`: for an aliased dependency the existing
entry under `dep_name` is untouched and the re-encoded dependency is
stored under `get_name`, even though `get_dep` locates that same
dependency by `dep_name`. -/
theorem claim_C9_writes_effective_name (doc : Document) (pid dep_index : Nat)
    (pkg : Package) (kvs : List (String × Item)) (dep : Dependency)
    (hpkg : doc.packages[pid]? = some pkg)
    (hnav : pkg.toml_doc.navigate (splitKey pkg.dependency_type_key) = some (.table kvs))
    (hdep : pkg.dependencies[dep_index]? = some dep)
    (halias : dep.get_name ≠ dep.dep_name) :
    lookupKV (writeResultTable kvs dep) dep.dep_name = lookupKV kvs dep.dep_name
  ∧ lookupKV (writeResultTable kvs dep) dep.get_name = some (encode_dep dep)
  ∧ doc.write_dep pid dep_index FsResult.ok
      = .ok ⟨doc.packages.set pid (writeResultPkg pkg kvs dep)⟩
          ((writeResultRoot pkg kvs dep).render)
  ∧ (pkg.dependencies.find? (fun x => x.dep_name == dep.dep_name) = some dep →
      doc.get_dep pid dep.dep_name = some (Except.ok dep)) := by
  refine ⟨lookupKV_insertKV_ne dep.get_name dep.dep_name (encode_dep dep)
      (Ne.symm halias) kvs,
    lookupKV_insertKV_self dep.get_name (encode_dep dep) kvs, ?_, ?_⟩
  · simp [Document.write_dep, hpkg, hnav, hdep, Item.asTable,
      writeResultPkg, writeResultRoot, writeResultTable]
  · intro hfind
    simp [Document.get_dep, Document.get_deps, hpkg, hfind]

/-- C9 witness: writing the aliased dependency (declared key `a`,
effective name `b`) leaves the `a` entry of the section table unchanged
and stores the re-encoding under `b`. -/
theorem claim_C9_writes_effective_name_witness :
    lookupKV (writeResultTable [("a", Item.value (TomlValue.str "1"))] exAliasDep) "a"
      = some (Item.value (TomlValue.str "1"))
  ∧ lookupKV (writeResultTable [("a", Item.value (TomlValue.str "1"))] exAliasDep) "b"
      = some (encode_dep exAliasDep) := by
  have h := claim_C9_writes_effective_name exAliasDoc2 0 0 exAliasPkg
    [("a", Item.value (TomlValue.str "1"))] exAliasDep rfl rfl rfl (by decide)
  exact ⟨h.1.trans rfl, h.2.1⟩

theorem perm_insertByScoreDesc (x : Dependency × FuzzyResult) :
    ∀ l, (insertByScoreDesc x l).Perm (x :: l) := by
  intro l
  induction l with
  | nil => simp [insertByScoreDesc]
  | cons h t ih =>
    by_cases hc : scoreOf x < scoreOf h
    · simp only [insertByScoreDesc, if_pos hc]
      exact (ih.cons h).trans (List.Perm.swap x h t)
    · simp [insertByScoreDesc, if_neg hc]

theorem perm_sortByScoreDesc : ∀ l, (sortByScoreDesc l).Perm l := by
  intro l
  induction l with
  | nil => simp [sortByScoreDesc]
  | cons x t ih =>
    exact (perm_insertByScoreDesc x (sortByScoreDesc t)).trans (ih.cons x)

theorem pairwise_insertByScoreDesc (x : Dependency × FuzzyResult) :
    ∀ l, List.Pairwise (fun a b => scoreOf b ≤ scoreOf a) l →
      List.Pairwise (fun a b => scoreOf b ≤ scoreOf a) (insertByScoreDesc x l) := by
  intro l
  induction l with
  | nil => intro _; simp [insertByScoreDesc]
  | cons h t ih =>
    intro hp
    rcases List.pairwise_cons.1 hp with ⟨hh, ht⟩
    by_cases hc : scoreOf x < scoreOf h
    · simp only [insertByScoreDesc, if_pos hc]
      refine List.pairwise_cons.2 ⟨?_, ih ht⟩
      intro b hb
      rcases List.mem_cons.1 ((perm_insertByScoreDesc x t).mem_iff.1 hb) with rfl | hbt
      · exact le_of_lt hc
      · exact hh b hbt
    · simp only [insertByScoreDesc, if_neg hc]
      have hxh : scoreOf h ≤ scoreOf x := le_of_not_lt hc
      refine List.pairwise_cons.2 ⟨?_, hp⟩
      intro b hb
      rcases List.mem_cons.1 hb with rfl | hbt
      · exact hxh
      · exact le_trans (hh b hbt) hxh

theorem pairwise_sortByScoreDesc :
    ∀ l, List.Pairwise (fun a b => scoreOf b ≤ scoreOf a) (sortByScoreDesc l) := by
  intro l
  induction l with
  | nil => simp [sortByScoreDesc]
  | cons x t ih => exact pairwise_insertByScoreDesc x (sortByScoreDesc t) ih

theorem filter_insertByScoreDesc (s : Int) (x : Dependency × FuzzyResult) :
    ∀ l, (insertByScoreDesc x l).filter (fun a => scoreOf a == s)
      = if scoreOf x == s then x :: l.filter (fun a => scoreOf a == s)
        else l.filter (fun a => scoreOf a == s) := by
  intro l
  induction l with
  | nil =>
    by_cases hxs : (scoreOf x == s) = true <;>
      simp [insertByScoreDesc, List.filter, hxs]
  | cons h t ih =>
    by_cases hc : scoreOf x < scoreOf h
    · by_cases hxs : (scoreOf x == s) = true
      · have hx : scoreOf x = s := by simpa using hxs
        have hh : (scoreOf h == s) = false := by
          have : scoreOf h ≠ s := by omega
          simpa using this
        simp [insertByScoreDesc, if_pos hc, List.filter_cons, hh, ih, hxs]
      · simp [insertByScoreDesc, if_pos hc, List.filter_cons, ih, hxs]
    · by_cases hxs : (scoreOf x == s) = true <;>
        simp [insertByScoreDesc, if_neg hc, List.filter_cons, hxs]

theorem filter_sortByScoreDesc (s : Int) :
    ∀ l, (sortByScoreDesc l).filter (fun a => scoreOf a == s)
      = l.filter (fun a => scoreOf a == s) := by
  intro l
  induction l with
  | nil => simp [sortByScoreDesc]
  | cons x t ih =>
    by_cases hxs : (scoreOf x == s) = true <;>
      simp [sortByScoreDesc, filter_insertByScoreDesc, ih, List.filter_cons, hxs]

theorem sortByScoreDesc_const (c : Int) :
    ∀ l, (∀ a ∈ l, scoreOf a = c) → sortByScoreDesc l = l := by
  intro l
  induction l with
  | nil => intro _; rfl
  | cons x t ih =>
    intro hall
    have hx : scoreOf x = c := hall x (by simp)
    have ht : ∀ a ∈ t, scoreOf a = c := fun a ha => hall a (by simp [ha])
    have : sortByScoreDesc (x :: t) = insertByScoreDesc x (sortByScoreDesc t) := rfl
    rw [this, ih ht]
    cases t with
    | nil => rfl
    | cons h t' =>
      have hh : scoreOf h = c := ht h (by simp)
      simp [insertByScoreDesc, hx, hh]

theorem filteredScored_map_fst (m : Matcher) (deps : List Dependency) (filter : String) :
    (filteredScored m deps filter).map Prod.fst
      = deps.filter (fun d => (m d.get_name filter).isSome) := by
  simp only [filteredScored]
  induction deps with
  | nil => rfl
  | cons d ds ih =>
    cases hm : m d.get_name filter with
    | none => simp [List.filterMap_cons, hm, List.filter_cons, ih]
    | some r => simp [List.filterMap_cons, hm, List.filter_cons, ih]

theorem filteredScored_empty (m : Matcher) (deps : List Dependency)
    (hm : ∀ n, m n "" = some (0, [])) :
    filteredScored m deps ""
      = deps.map (fun d => (d, ((0 : Int), ([] : List Nat)))) := by
  simp only [filteredScored]
  induction deps with
  | nil => rfl
  | cons d ds ih =>
    simp only [List.filterMap_cons, List.map_cons, hm, Option.map_some'] at ih ⊢
    rw [ih]

/-- C6: the filtered view excludes exactly the dependencies whose
effective name has no fuzzy match; the remaining ones are sorted by
descending score with equal scores kept in original order (the sorted
list is a permutation of the matched list, pairwise descending, and
restricting to any one score preserves the original subsequence);
and when the matcher degenerately accepts everything on the empty
pattern, the empty filter returns every dependency in original order. -/
theorem claim_C6_filtered_view (m : Matcher) (deps : List Dependency) (filter : String) :
    ((get_deps_filtered_view m deps filter).map Prod.fst).Perm
      (deps.filter (fun d => (m d.get_name filter).isSome))
  ∧ List.Pairwise (fun a b => scoreOf b ≤ scoreOf a)
      (sortByScoreDesc (filteredScored m deps filter))
  ∧ (∀ s : Int,
      (sortByScoreDesc (filteredScored m deps filter)).filter (fun a => scoreOf a == s)
        = (filteredScored m deps filter).filter (fun a => scoreOf a == s))
  ∧ ((∀ n, m n "" = some (0, [])) →
      get_deps_filtered_view m deps "" = deps.map (fun d => (d, []))) := by
  refine ⟨?_, pairwise_sortByScoreDesc _, fun s => filter_sortByScoreDesc s _, ?_⟩
  · have h1 : (get_deps_filtered_view m deps filter).map Prod.fst
        = (sortByScoreDesc (filteredScored m deps filter)).map Prod.fst := by
      simp [get_deps_filtered_view, List.map_map, Function.comp]
    rw [h1, ← filteredScored_map_fst]
    exact (perm_sortByScoreDesc _).map Prod.fst
  · intro hm
    have hconst : ∀ a ∈ deps.map (fun d => (d, ((0 : Int), ([] : List Nat)))),
        scoreOf a = 0 := by
      intro a ha
      obtain ⟨d, _, rfl⟩ := List.mem_map.1 ha
      rfl
    rw [get_deps_filtered_view, filteredScored_empty m deps hm,
      sortByScoreDesc_const 0 _ hconst]
    simp [List.map_map, Function.comp]

/-- C6 witness: the empty filter returns all of `[a, b, c]` in original
order, and a pattern matching only `serde_json` excludes the others and
reports its match positions. -/
theorem claim_C6_filtered_view_witness :
    get_deps_filtered_view simpleMatcher [exDepA, exDepB, exDepC] ""
      = [(exDepA, []), (exDepB, []), (exDepC, [])]
  ∧ get_deps_filtered_view rankMatcher [exDep1, exDepSerdeJson, exDepTokio] "sj"
      = [(exDepSerdeJson, [0, 6])] :=
  ⟨(claim_C6_filtered_view simpleMatcher [exDepA, exDepB, exDepC] "").2.2.2
      (fun _ => rfl),
   rfl⟩
